import Mathlib

/-!
# Shut the Box: a shallow embedding of the rules engine and strategy selector

This file embeds the game logic of the `ShutTheBox` class found in
`src/shut_the_box.py` (and, where a claim refers to it, the older variant in
`src/stb_simple_ai.py`) and proves the specification claims about it.

Modelling conventions:
* Python lists of tiles become `List Nat`; a move is a `List Nat`.
* `itertools.combinations` becomes `combinations`, emitting subsequences in the
  same (lexicographic-by-index) order.
* `random.randint` / `random.choice` are modelled by explicit oracle inputs: a
  dice stream `Nat → Nat × Nat` and an index stream `Nat → Nat`; `random.choice`
  picks `l[rnd % len l]`, which ranges over exactly the members of `l`.
* The float probabilities `1/36 .. 6/36` in `calculate_tile_probabilities` are
  modelled as the exact rationals they denote (every probability used is an
  exact multiple of `1/36`; only relative comparisons of these sums matter).
* Python equality between a `list` and a `tuple` is always `False`, even when
  the elements agree; `PySeq` and `pyListEqTuple` record this fact, which is
  essential to the behaviour of strategy 1.
* The unbounded `while not self.game_over` loop of `play_game` is modelled with
  explicit fuel (`play_game_aux`); termination within 9 turns is proved below.
-/

open scoped List

namespace STB

/-- A move: an ordered sequence of tile values, as the Python code keeps it. -/
abbrev Move := List Nat

/-- `itertools.combinations(l, k)`: all length-`k` subsequences of `l`, in
lexicographic order of positions (combinations containing the head come first,
exactly as `itertools` emits them). -/
def combinations : Nat → List Nat → List (List Nat)
  | 0, _ => [[]]
  | _ + 1, [] => []
  | k + 1, x :: xs => (combinations k xs).map (x :: ·) ++ combinations (k + 1) xs

/-- `ShutTheBox.get_possible_moves` (src/shut_the_box.py lines 144-158, and the
identical copy in src/stb_simple_ai.py lines 53-67): for each size `i` from `1`
to `len(tiles)`, keep every `i`-combination of `tiles` whose sum equals
`total`. -/
def get_possible_moves (tiles : List Nat) (total : Nat) : List Move :=
  (List.range' 1 tiles.length).flatMap
    (fun i => (combinations i tiles).filter (fun combo => combo.sum == total))

/-- `ShutTheBox.is_valid_move` (src/shut_the_box.py lines 123-133):
`sum(move) == total and all(tile in self.tiles for tile in move)`. -/
def is_valid_move (tiles : List Nat) (move : Move) (total : Nat) : Bool :=
  move.sum == total && move.all (fun tile => tiles.contains tile)

/-- `ShutTheBox.make_move` (src/shut_the_box.py lines 135-142): remove each tile
of `move` from `tiles` in order; Python `list.remove` deletes the first
occurrence, i.e. `List.erase`. -/
def make_move (tiles : List Nat) (move : Move) : List Nat :=
  move.foldl (fun ts tile => ts.erase tile) tiles

/-- The `sum_probabilities` table of `calculate_tile_probabilities`
(src/shut_the_box.py lines 160-175): probabilities of each two-dice total,
with the float values `k/36` taken as exact rationals. -/
def sum_probabilities : List (Nat × ℚ) :=
  [(2, 1/36), (3, 2/36), (4, 3/36), (5, 4/36), (6, 5/36),
   (7, 6/36), (8, 5/36), (9, 4/36), (10, 3/36), (11, 2/36), (12, 1/36)]

/-- `ShutTheBox.calculate_tile_probabilities`: tile `i` accumulates the
probability of every total `s` in the table with `i ≤ s ≤ 9`.  The Python dict
`{1: p1, ..., 9: p9}` is modelled as a function of the tile value. -/
def calculate_tile_probabilities (i : Nat) : ℚ :=
  sum_probabilities.foldl
    (fun acc p => if i ≤ p.1 ∧ p.1 ≤ 9 then acc + p.2 else acc) 0

/-- A Python sequence value over integers.  `list` and `tuple` are distinct
runtime types, and `==` between a list and a tuple is always `False`, even with
equal elements. -/
inductive PySeq where
  | pylist (elems : List Nat)
  | pytuple (elems : List Nat)
deriving DecidableEq

/-- Python `==` between the list `a` (for instance the literal `[total]`) and a
tuple `b` (the elements of `possible_moves`, which `itertools.combinations`
produces as tuples).  It is constantly `false`: a list never equals a tuple. -/
def pyListEqTuple (a b : List Nat) : Bool :=
  PySeq.pylist a == PySeq.pytuple b

/-- `random.choice(l)` with the randomness supplied as an index oracle `rnd`;
selects `l[rnd % len l]`, an arbitrary member of `l`. -/
def pyChoice (l : List Move) (rnd : Nat) : Move :=
  l.getD (rnd % l.length) []

/-- Python `max(possible_moves, key=len)`: scan left to right, replacing the
champion only on a strictly larger length, so the first maximum wins.  Python
raises on an empty list; `ai_player` only reaches this with a non-empty list. -/
def pyMaxByLen (l : List Move) : Move :=
  match l with
  | [] => []
  | x :: xs => xs.foldl (fun best y => if best.length < y.length then y else best) x

/-- Python `min(move_probabilities, key=lambda x: x[1])`: scan left to right,
replacing the champion only on a strictly smaller key, so the first minimum
wins.  The empty case is unreachable from `ai_player`. -/
def pyMinBySnd (l : List (Move × ℚ)) : Move × ℚ :=
  match l with
  | [] => ([], 0)
  | x :: xs => xs.foldl (fun best y => if y.2 < best.2 then y else best) x

/-- `min(abs(tile - middle) for tile in move)` with `middle = 5`, used as the
sort key of strategies 4 and 5.  Python `min` of an empty generator raises;
moves are never empty where this is used. -/
def middleKey (move : Move) : Nat :=
  match move.map (fun tile => ((tile : Int) - 5).natAbs) with
  | [] => 0
  | d :: ds => ds.foldl Nat.min d

/-- `ShutTheBox.ai_player` (src/shut_the_box.py lines 177-237).  Notes on
faithfulness:
* strategy 1 computes `[total] if [total] in possible_moves else []`; the
  membership test compares the list `[total]` against tuples, so it is always
  `False` (see `pyListEqTuple`), and the code falls through to the dice-pair
  match `set(move) == {dice1, dice2}` and then to a random choice;
* strategy 2 is `max(possible_moves, key=len)`;
* strategy 3 scores each move by the sum of its tiles' probabilities and takes
  the minimum;
* strategies 4 and 5 stably sort by `min(abs(tile-5))` (ascending resp.
  descending, the latter via the negated key) and take the head; Python
  `list.sort` is stable, as is insertion sort;
* any other tag falls into the final `else` and picks at random, exactly like
  strategy 0. -/
def ai_player (strategy : Int) (possible_moves : List Move)
    (dice1 dice2 total : Nat) (rnd : Nat) : Move :=
  if possible_moves.isEmpty then []
  else if strategy == 0 then
    pyChoice possible_moves rnd
  else if strategy == 1 then
    let single_tile_move :=
      if possible_moves.any (fun m => pyListEqTuple [total] m) then [total] else []
    if single_tile_move.isEmpty then
      let individual_moves := possible_moves.filter
        (fun move => decide (move.toFinset = ({dice1, dice2} : Finset Nat)))
      if individual_moves.isEmpty then pyChoice possible_moves rnd
      else individual_moves.headD []
    else single_tile_move
  else if strategy == 2 then
    pyMaxByLen possible_moves
  else if strategy == 3 then
    let move_probabilities := possible_moves.map
      (fun move => (move, (move.map calculate_tile_probabilities).sum))
    (pyMinBySnd move_probabilities).1
  else if strategy == 4 then
    (List.insertionSort (fun a b => middleKey a ≤ middleKey b) possible_moves).headD []
  else if strategy == 5 then
    (List.insertionSort
      (fun a b => -(middleKey a : Int) ≤ -(middleKey b : Int)) possible_moves).headD []
  else
    pyChoice possible_moves rnd

/-- `pad_moves` (src/shut_the_box.py lines 46-48) at its call site
(`length=5`, `pad_value=0`): append zeros up to length 5.  Python appends
`[0] * (5 - len(move))`, an empty list when the move is longer, exactly as
truncated subtraction behaves. -/
def pad_moves (moves : List Move) : List Move :=
  moves.map (fun move => move ++ List.replicate (5 - move.length) 0)

/-- The mutable state of one `ShutTheBox` instance (src/shut_the_box.py
lines 108-116).  The transient `invalid_move` loop flag is not part of the
observable state; see `play_turn`. -/
structure GameState where
  tiles : List Nat
  game_over : Bool
  rolls : List (Nat × Nat)
  moves : List Move
  strategy : Int
deriving DecidableEq, Repr

/-- `ShutTheBox.__init__`: tiles `1..9`, game not over, empty histories. -/
def init (strategy : Int) : GameState :=
  { tiles := List.range' 1 9, game_over := false, rolls := [], moves := [],
    strategy := strategy }

/-- `ShutTheBox.play_turn` in AI mode (src/shut_the_box.py lines 239-293) for
one roll `(dice1, dice2)` and one random-oracle value.  The roll is appended,
then: no legal move pops the roll again and ends the game; otherwise the AI
move is validated and applied and the box is checked.  The `while
self.invalid_move` loop re-runs its body only when the chosen move is invalid,
which never happens in AI play (`ai_player_valid` below), so a single body
execution is exact; the unreachable invalid branch leaves the state (tiles,
histories) unchanged, as one non-applying iteration does. -/
def play_turn (s : GameState) (dice1 dice2 rnd : Nat) : GameState :=
  let total := dice1 + dice2
  let s1 : GameState := { s with rolls := s.rolls ++ [(dice1, dice2)] }
  let possible_moves := get_possible_moves s1.tiles total
  if possible_moves.isEmpty then
    { s1 with game_over := true, rolls := s1.rolls.dropLast }
  else
    let move := ai_player s1.strategy possible_moves dice1 dice2 total rnd
    let s2 : GameState :=
      if is_valid_move s1.tiles move total then
        { s1 with tiles := make_move s1.tiles move, moves := s1.moves ++ [move] }
      else s1
    if s2.tiles.isEmpty then { s2 with game_over := true } else s2

/-- The `while not self.game_over` loop of `ShutTheBox.play_game`
(src/shut_the_box.py lines 295-312) with explicit fuel; `k` indexes the oracle
streams.  `play_game_terminates_aux` below shows fuel 9 always suffices. -/
def play_game_aux (dice : Nat → Nat × Nat) (rnds : Nat → Nat) :
    Nat → Nat → GameState → GameState
  | _, 0, s => s
  | k, fuel + 1, s =>
    if s.game_over then s
    else play_game_aux dice rnds (k + 1) fuel (play_turn s (dice k).1 (dice k).2 (rnds k))

/-- `ShutTheBox.play_game` return value:
`(strategy, score, tiles_closed, rolls, padded_moves)` where the score is the
sum of the remaining tiles and `tiles_closed = 9 - len(tiles)`. -/
def play_game (strategy : Int) (dice : Nat → Nat × Nat) (rnds : Nat → Nat)
    (fuel : Nat) : Int × Nat × Nat × List (Nat × Nat) × List Move :=
  let s := play_game_aux dice rnds 0 fuel (init strategy)
  (s.strategy, s.tiles.sum, 9 - s.tiles.length, s.rolls, pad_moves s.moves)

/-- The standard two-dice sum distribution exactly as the specification words
it: `P(2)=1/36, P(3)=2/36, ..., P(7)=6/36, ..., P(12)=1/36`, zero elsewhere.
This definition follows the spec text (for comparison against
`calculate_tile_probabilities`), not the source. -/
def spec_dice_sum_prob (s : Nat) : ℚ :=
  if 2 ≤ s ∧ s ≤ 12 then (6 - |(s : ℚ) - 7|) / 36 else 0

end STB

namespace SimpleAI

/-- The state of the older `ShutTheBox` variant in `src/stb_simple_ai.py`
(lines 19-25): no per-instance strategy (the module reads a global). -/
structure GameState where
  tiles : List Nat
  game_over : Bool
  rolls : List (Nat × Nat)
  moves : List STB.Move
deriving DecidableEq, Repr

/-- The module-level `strategy` constant of `src/stb_simple_ai.py` (line 12):
`0`, the random-choice control. -/
def strategy : Nat := 0

/-- `ShutTheBox.ai_player` of `src/stb_simple_ai.py` (lines 86-118): three
strategies keyed on the global `strategy`; with an unknown tag `chosen_move`
would be unbound (a `NameError`), which the final arm marks as unreachable
(`strategy` is the constant `0`). -/
def ai_player (possible_moves : List STB.Move) (rnd : Nat) : STB.Move :=
  if possible_moves.isEmpty then []
  else if strategy == 0 then STB.pyChoice possible_moves rnd
  else if strategy == 1 then STB.pyMaxByLen possible_moves
  else if strategy == 2 then
    (STB.pyMinBySnd (possible_moves.map
      (fun move => (move, (move.map STB.calculate_tile_probabilities).sum)))).1
  else []

/-- `ShutTheBox.play_turn` of `src/stb_simple_ai.py` (lines 121-148).  Unlike
the `shut_the_box.py` variant, the stuck branch (lines 131-134) returns
immediately and does NOT pop the recorded roll. -/
def play_turn (s : GameState) (dice1 dice2 rnd : Nat) : GameState :=
  let total := dice1 + dice2
  let s1 : GameState := { s with rolls := s.rolls ++ [(dice1, dice2)] }
  let possible_moves := STB.get_possible_moves s1.tiles total
  if possible_moves.isEmpty then
    { s1 with game_over := true }
  else
    let move := ai_player possible_moves rnd
    let s2 : GameState :=
      if STB.is_valid_move s1.tiles move total then
        { s1 with tiles := STB.make_move s1.tiles move, moves := s1.moves ++ [move] }
      else s1
    if s2.tiles.isEmpty then { s2 with game_over := true } else s2

/-- `ShutTheBox.__init__` of `src/stb_simple_ai.py`. -/
def init : GameState :=
  { tiles := List.range' 1 9, game_over := false, rolls := [], moves := [] }

end SimpleAI

namespace STB

/-! ## Helper lemmas about the rules engine -/

theorem pyListEqTuple_false (a b : List Nat) : pyListEqTuple a b = false := rfl

theorem mem_combinations (l : List Nat) : ∀ (k : Nat) (m : List Nat),
    m ∈ combinations k l ↔ (m.length = k ∧ m <+ l) := by
  induction l with
  | nil =>
    intro k m
    cases k with
    | zero =>
      simp only [combinations, List.mem_singleton, List.sublist_nil]
      constructor
      · rintro rfl; exact ⟨rfl, rfl⟩
      · rintro ⟨-, rfl⟩; rfl
    | succ k =>
      simp only [combinations, List.not_mem_nil, false_iff, not_and, List.sublist_nil]
      rintro h rfl
      simp at h
  | cons x xs ih =>
    intro k m
    cases k with
    | zero =>
      simp only [combinations, List.mem_singleton, List.length_eq_zero]
      constructor
      · rintro rfl; exact ⟨rfl, List.nil_sublist _⟩
      · rintro ⟨rfl, -⟩; rfl
    | succ k =>
      simp only [combinations, List.mem_append, List.mem_map, ih, List.sublist_cons_iff]
      constructor
      · rintro (⟨m', ⟨hlen, hsub⟩, rfl⟩ | ⟨hlen, hsub⟩)
        · exact ⟨by simp [hlen], Or.inr ⟨m', rfl, hsub⟩⟩
        · exact ⟨hlen, Or.inl hsub⟩
      · rintro ⟨hlen, (hsub | ⟨r, rfl, hsub⟩)⟩
        · exact Or.inr ⟨hlen, hsub⟩
        · exact Or.inl ⟨r, ⟨by simpa using hlen, hsub⟩, rfl⟩

/-- Membership characterisation of the legal-move enumeration: exactly the
non-empty subsequences of `tiles` whose sum is `total`. -/
theorem mem_get_possible_moves {tiles : List Nat} {total : Nat} {m : Move} :
    m ∈ get_possible_moves tiles total ↔ (m <+ tiles ∧ m ≠ [] ∧ m.sum = total) := by
  unfold get_possible_moves
  simp only [List.mem_flatMap, List.mem_filter, mem_combinations, List.mem_range',
    beq_iff_eq]
  constructor
  · rintro ⟨i, ⟨j, hj, rfl⟩, ⟨hlen, hsub⟩, hsum⟩
    refine ⟨hsub, ?_, hsum⟩
    intro hnil
    subst hnil
    simp only [List.length_nil] at hlen
    omega
  · rintro ⟨hsub, hne, hsum⟩
    refine ⟨m.length, ⟨m.length - 1, ?_, ?_⟩, ⟨rfl, hsub⟩, hsum⟩
    · have h1 : 1 ≤ m.length := List.length_pos.mpr hne
      have h2 : m.length ≤ tiles.length := hsub.length_le
      omega
    · have h1 : 1 ≤ m.length := List.length_pos.mpr hne
      omega

/-- `is_valid_move` decoded: the chosen list sums to the total and all its
entries are present tiles.  (No distinctness requirement: see the claim-3
counterexample.) -/
theorem is_valid_move_iff (tiles : List Nat) (move : Move) (total : Nat) :
    is_valid_move tiles move total = true ↔
      (move.sum = total ∧ ∀ x ∈ move, x ∈ tiles) := by
  simp [is_valid_move, List.all_eq_true, List.elem_iff]

theorem make_move_subset (move : Move) : ∀ tiles : List Nat,
    make_move tiles move ⊆ tiles := by
  induction move with
  | nil => intro tiles; exact fun _ h => h
  | cons m ms ih =>
    intro tiles
    have h1 : make_move tiles (m :: ms) = make_move (tiles.erase m) ms := rfl
    rw [h1]
    exact (ih (tiles.erase m)).trans (List.erase_subset m tiles)

theorem make_move_length_le (move : Move) : ∀ tiles : List Nat,
    (make_move tiles move).length ≤ tiles.length := by
  induction move with
  | nil => intro tiles; exact le_rfl
  | cons m ms ih =>
    intro tiles
    have h1 : make_move tiles (m :: ms) = make_move (tiles.erase m) ms := rfl
    rw [h1]
    exact (ih (tiles.erase m)).trans (tiles.erase_sublist m).length_le

theorem make_move_length_lt {tiles : List Nat} {move : Move} (hne : move ≠ [])
    (hmem : ∀ x ∈ move, x ∈ tiles) :
    (make_move tiles move).length < tiles.length := by
  obtain ⟨m, ms, rfl⟩ := List.exists_cons_of_ne_nil hne
  have h1 : make_move tiles (m :: ms) = make_move (tiles.erase m) ms := rfl
  have hm : m ∈ tiles := hmem m (List.mem_cons_self m ms)
  have h2 : (tiles.erase m).length = tiles.length - 1 :=
    List.length_erase_of_mem hm
  have h3 : 0 < tiles.length := List.length_pos.mpr (List.ne_nil_of_mem hm)
  calc (make_move tiles (m :: ms)).length
      ≤ (tiles.erase m).length := by rw [h1]; exact make_move_length_le ms _
    _ < tiles.length := by omega

/-- Removing a valid duplicate-free move splits the tile list up to
permutation. -/
theorem make_move_perm {move : Move} : ∀ {tiles : List Nat}, move.Nodup →
    (∀ x ∈ move, x ∈ tiles) → tiles ~ move ++ make_move tiles move := by
  induction move with
  | nil => intro tiles _ _; simp [make_move]
  | cons m ms ih =>
    intro tiles hnd hmem
    have hm : m ∈ tiles := hmem m (List.mem_cons_self m ms)
    have hnd' : ms.Nodup := (List.nodup_cons.mp hnd).2
    have hms : ∀ x ∈ ms, x ∈ tiles.erase m := by
      intro x hx
      have hxt : x ∈ tiles := hmem x (List.mem_cons_of_mem m hx)
      have hxm : x ≠ m := by
        rintro rfl
        exact (List.nodup_cons.mp hnd).1 hx
      exact (List.mem_erase_of_ne hxm).mpr hxt
    have h1 : make_move tiles (m :: ms) = make_move (tiles.erase m) ms := rfl
    calc tiles ~ m :: tiles.erase m := List.perm_cons_erase hm
      _ ~ m :: (ms ++ make_move (tiles.erase m) ms) :=
          (ih hnd' hms).cons m
      _ = (m :: ms) ++ make_move tiles (m :: ms) := by rw [h1]; rfl

theorem make_move_sum {tiles : List Nat} {move : Move} (hnd : move.Nodup)
    (hmem : ∀ x ∈ move, x ∈ tiles) :
    (make_move tiles move).sum + move.sum = tiles.sum := by
  have h := (make_move_perm hnd hmem).sum_eq
  rw [List.sum_append] at h
  omega

theorem make_move_nodup {tiles : List Nat} {move : Move} (htiles : tiles.Nodup)
    (hnd : move.Nodup) (hmem : ∀ x ∈ move, x ∈ tiles) :
    (make_move tiles move).Nodup := by
  have h := ((make_move_perm hnd hmem).nodup_iff).mp htiles
  exact (List.nodup_append.mp h).2.1

end STB

namespace STB

/-! ## Helper lemmas about the strategy selector -/

theorem pyChoice_mem {l : List Move} (hne : l ≠ []) (rnd : Nat) :
    pyChoice l rnd ∈ l := by
  have hpos : 0 < l.length := List.length_pos.mpr hne
  have hlt : rnd % l.length < l.length := Nat.mod_lt rnd hpos
  unfold pyChoice
  rw [List.getD_eq_getElem?_getD, List.getElem?_eq_getElem hlt]
  exact List.getElem_mem hlt

theorem headD_mem {l : List Move} (hne : l ≠ []) : l.headD [] ∈ l := by
  cases l with
  | nil => exact absurd rfl hne
  | cons x xs => exact List.mem_cons_self x xs

/-- First-maximum characterisation of the Python `max(·, key=len)` fold: the
result either is the accumulator (nothing strictly longer was seen) or splits
the list with strictly shorter moves before it and no longer move after it. -/
theorem foldl_max_len_spec (l : List Move) : ∀ acc : Move, ∃ r : Move,
    l.foldl (fun best y => if best.length < y.length then y else best) acc = r ∧
    ((r = acc ∧ ∀ y ∈ l, y.length ≤ acc.length) ∨
      (∃ l₁ l₂, l = l₁ ++ r :: l₂ ∧ acc.length < r.length ∧
        (∀ z ∈ l₁, z.length < r.length) ∧ (∀ z ∈ l₂, z.length ≤ r.length))) := by
  induction l with
  | nil => intro acc; exact ⟨acc, rfl, Or.inl ⟨rfl, by simp⟩⟩
  | cons y ys ih =>
    intro acc
    by_cases hy : acc.length < y.length
    · have hstep : (y :: ys).foldl (fun best z => if best.length < z.length then z else best) acc
          = ys.foldl (fun best z => if best.length < z.length then z else best) y := by
        simp [List.foldl_cons, if_pos hy]
      obtain ⟨r, hr, hcase⟩ := ih y
      refine ⟨r, hstep.trans hr, Or.inr ?_⟩
      rcases hcase with ⟨heq, hall⟩ | ⟨l₁, l₂, hsplit, hacc, hbefore, hafter⟩
      · refine ⟨[], ys, by simp [heq], heq ▸ hy, by simp, ?_⟩
        intro z hz
        exact heq ▸ hall z hz
      · refine ⟨y :: l₁, l₂, by simp [hsplit], lt_trans hy hacc, ?_, hafter⟩
        intro z hz
        rcases List.mem_cons.mp hz with rfl | hz'
        · exact hacc
        · exact hbefore z hz'
    · have hstep : (y :: ys).foldl (fun best z => if best.length < z.length then z else best) acc
          = ys.foldl (fun best z => if best.length < z.length then z else best) acc := by
        simp [List.foldl_cons, if_neg hy]
      obtain ⟨r, hr, hcase⟩ := ih acc
      refine ⟨r, hstep.trans hr, ?_⟩
      rcases hcase with ⟨heq, hall⟩ | ⟨l₁, l₂, hsplit, hacc, hbefore, hafter⟩
      · refine Or.inl ⟨heq, ?_⟩
        intro z hz
        rcases List.mem_cons.mp hz with rfl | hz'
        · omega
        · exact hall z hz'
      · refine Or.inr ⟨y :: l₁, l₂, by simp [hsplit], hacc, ?_, hafter⟩
        intro z hz
        rcases List.mem_cons.mp hz with rfl | hz'
        · omega
        · exact hbefore z hz'

/-- `pyMaxByLen` returns the first longest move: every move before it in the
list is strictly shorter, every move after it is no longer. -/
theorem pyMaxByLen_first_max {l : List Move} (hne : l ≠ []) :
    ∃ l₁ l₂, l = l₁ ++ pyMaxByLen l :: l₂ ∧
      (∀ z ∈ l₁, z.length < (pyMaxByLen l).length) ∧
      (∀ z ∈ l₂, z.length ≤ (pyMaxByLen l).length) := by
  obtain ⟨x, xs, rfl⟩ := List.exists_cons_of_ne_nil hne
  obtain ⟨r, hr, hcase⟩ := foldl_max_len_spec xs x
  have hP : pyMaxByLen (x :: xs) = r := hr
  rw [hP]
  rcases hcase with ⟨heq, hall⟩ | ⟨l₁, l₂, hsplit, hacc, hbefore, hafter⟩
  · refine ⟨[], xs, by simp [heq], by simp, ?_⟩
    intro z hz
    exact heq ▸ hall z hz
  · refine ⟨x :: l₁, l₂, by simp [hsplit], ?_, hafter⟩
    intro z hz
    rcases List.mem_cons.mp hz with rfl | hz'
    · exact hacc
    · exact hbefore z hz'

theorem pyMaxByLen_mem {l : List Move} (hne : l ≠ []) : pyMaxByLen l ∈ l := by
  obtain ⟨l₁, l₂, hsplit, -, -⟩ := pyMaxByLen_first_max hne
  conv_lhs => rw [hsplit]
  exact List.mem_append_right l₁ (List.mem_cons_self _ _)

/-- First-minimum characterisation of the Python `min(·, key=snd)` fold. -/
theorem foldl_min_snd_spec (l : List (Move × ℚ)) : ∀ acc : Move × ℚ, ∃ r : Move × ℚ,
    l.foldl (fun best y => if y.2 < best.2 then y else best) acc = r ∧
    ((r = acc ∧ ∀ y ∈ l, acc.2 ≤ y.2) ∨
      (∃ l₁ l₂, l = l₁ ++ r :: l₂ ∧ r.2 < acc.2 ∧
        (∀ z ∈ l₁, r.2 < z.2) ∧ (∀ z ∈ l₂, r.2 ≤ z.2))) := by
  induction l with
  | nil => intro acc; exact ⟨acc, rfl, Or.inl ⟨rfl, by simp⟩⟩
  | cons y ys ih =>
    intro acc
    by_cases hy : y.2 < acc.2
    · have hstep : (y :: ys).foldl (fun best z => if z.2 < best.2 then z else best) acc
          = ys.foldl (fun best z => if z.2 < best.2 then z else best) y := by
        simp [List.foldl_cons, if_pos hy]
      obtain ⟨r, hr, hcase⟩ := ih y
      refine ⟨r, hstep.trans hr, Or.inr ?_⟩
      rcases hcase with ⟨heq, hall⟩ | ⟨l₁, l₂, hsplit, hacc, hbefore, hafter⟩
      · refine ⟨[], ys, by simp [heq], heq ▸ hy, by simp, ?_⟩
        intro z hz
        exact heq ▸ hall z hz
      · refine ⟨y :: l₁, l₂, by simp [hsplit], lt_trans hacc hy, ?_, hafter⟩
        intro z hz
        rcases List.mem_cons.mp hz with rfl | hz'
        · exact hacc
        · exact hbefore z hz'
    · have hstep : (y :: ys).foldl (fun best z => if z.2 < best.2 then z else best) acc
          = ys.foldl (fun best z => if z.2 < best.2 then z else best) acc := by
        simp [List.foldl_cons, if_neg hy]
      obtain ⟨r, hr, hcase⟩ := ih acc
      refine ⟨r, hstep.trans hr, ?_⟩
      rcases hcase with ⟨heq, hall⟩ | ⟨l₁, l₂, hsplit, hacc, hbefore, hafter⟩
      · refine Or.inl ⟨heq, ?_⟩
        intro z hz
        rcases List.mem_cons.mp hz with rfl | hz'
        · exact le_of_not_lt hy
        · exact hall z hz'
      · refine Or.inr ⟨y :: l₁, l₂, by simp [hsplit], hacc, ?_, hafter⟩
        intro z hz
        rcases List.mem_cons.mp hz with rfl | hz'
        · exact lt_of_lt_of_le hacc (le_of_not_lt hy)
        · exact hbefore z hz'

/-- `pyMinBySnd` returns the first pair of minimal second component. -/
theorem pyMinBySnd_first_min {l : List (Move × ℚ)} (hne : l ≠ []) :
    ∃ l₁ l₂, l = l₁ ++ pyMinBySnd l :: l₂ ∧
      (∀ z ∈ l₁, (pyMinBySnd l).2 < z.2) ∧
      (∀ z ∈ l₂, (pyMinBySnd l).2 ≤ z.2) := by
  obtain ⟨x, xs, rfl⟩ := List.exists_cons_of_ne_nil hne
  obtain ⟨r, hr, hcase⟩ := foldl_min_snd_spec xs x
  have hP : pyMinBySnd (x :: xs) = r := hr
  rw [hP]
  rcases hcase with ⟨heq, hall⟩ | ⟨l₁, l₂, hsplit, hacc, hbefore, hafter⟩
  · refine ⟨[], xs, by simp [heq], by simp, ?_⟩
    intro z hz
    exact heq ▸ hall z hz
  · refine ⟨x :: l₁, l₂, by simp [hsplit], ?_, hafter⟩
    intro z hz
    rcases List.mem_cons.mp hz with rfl | hz'
    · exact hacc
    · exact hbefore z hz'

theorem pyMinBySnd_mem {l : List (Move × ℚ)} (hne : l ≠ []) : pyMinBySnd l ∈ l := by
  obtain ⟨l₁, l₂, hsplit, -, -⟩ := pyMinBySnd_first_min hne
  conv_lhs => rw [hsplit]
  exact List.mem_append_right l₁ (List.mem_cons_self _ _)

/-- Decompose a mapped list around a distinguished element. -/
theorem map_eq_append_cons {α β : Type} {f : α → β} :
    ∀ {l : List α} {l₁ l₂ : List β} {c : β}, l.map f = l₁ ++ c :: l₂ →
      ∃ m₁ a m₂, l = m₁ ++ a :: m₂ ∧ m₁.map f = l₁ ∧ f a = c ∧ m₂.map f = l₂ := by
  intro l l₁
  induction l₁ generalizing l with
  | nil =>
    intro l₂ c h
    cases l with
    | nil => simp at h
    | cons a as =>
      simp only [List.map_cons, List.nil_append, List.cons.injEq] at h
      exact ⟨[], a, as, rfl, rfl, h.1, h.2⟩
  | cons b bs ih =>
    intro l₂ c h
    cases l with
    | nil => simp at h
    | cons a as =>
      simp only [List.map_cons, List.cons_append, List.cons.injEq] at h
      obtain ⟨m₁, x, m₂, rfl, hmap, hfx, hrest⟩ := ih h.2
      exact ⟨a :: m₁, x, m₂, rfl, by simp [h.1, hmap], hfx, hrest⟩

end STB

namespace STB

/-- Whatever the strategy tag (including unknown ones), `ai_player` returns a
member of the non-empty legal-move list. -/
theorem ai_player_mem (strategy : Int) {possible_moves : List Move}
    (hne : possible_moves ≠ []) (dice1 dice2 total rnd : Nat) :
    ai_player strategy possible_moves dice1 dice2 total rnd ∈ possible_moves := by
  have hemp : possible_moves.isEmpty = false := by
    simp [List.isEmpty_iff, hne]
  have hsort_mem : ∀ r : Move → Move → Prop, ∀ inst : DecidableRel r,
      (List.insertionSort r possible_moves).headD [] ∈ possible_moves := by
    intro r inst
    have hperm := List.perm_insertionSort r possible_moves
    have hlen : (List.insertionSort r possible_moves).length = possible_moves.length :=
      hperm.length_eq
    have hsne : List.insertionSort r possible_moves ≠ [] := by
      intro h
      rw [h] at hlen
      exact hne (List.length_eq_zero.mp hlen.symm)
    exact hperm.subset (headD_mem hsne)
  unfold ai_player
  rw [hemp]
  simp only [Bool.false_eq_true, if_false]
  by_cases h0 : (strategy == 0) = true
  · rw [if_pos h0]
    exact pyChoice_mem hne rnd
  rw [if_neg h0]
  by_cases h1 : (strategy == 1) = true
  · rw [if_pos h1]
    have hany : (possible_moves.any (fun m => pyListEqTuple [total] m)) = false := by
      rw [List.any_eq_false]
      intro m hm
      rw [pyListEqTuple_false]
      simp
    simp only [hany, Bool.false_eq_true, if_false, List.isEmpty_nil, if_true]
    by_cases hind : (possible_moves.filter
        (fun move => decide (move.toFinset = ({dice1, dice2} : Finset Nat)))).isEmpty = true
    · rw [if_pos hind]
      exact pyChoice_mem hne rnd
    · rw [if_neg hind]
      have hne' : possible_moves.filter
          (fun move => decide (move.toFinset = ({dice1, dice2} : Finset Nat))) ≠ [] := by
        intro h
        rw [h] at hind
        exact hind rfl
      exact List.mem_of_mem_filter (headD_mem hne')
  rw [if_neg h1]
  by_cases h2 : (strategy == 2) = true
  · rw [if_pos h2]
    exact pyMaxByLen_mem hne
  rw [if_neg h2]
  by_cases h3 : (strategy == 3) = true
  · rw [if_pos h3]
    have hmapne : possible_moves.map
        (fun move => (move, (move.map calculate_tile_probabilities).sum)) ≠ [] := by
      intro h
      exact hne (List.map_eq_nil_iff.mp h)
    have hmem := pyMinBySnd_mem hmapne
    obtain ⟨m, hm, hpair⟩ := List.mem_map.mp hmem
    have : (pyMinBySnd (possible_moves.map
        (fun move => (move, (move.map calculate_tile_probabilities).sum)))).1 = m := by
      rw [← hpair]
    rw [this]
    exact hm
  rw [if_neg h3]
  by_cases h4 : (strategy == 4) = true
  · rw [if_pos h4]
    exact hsort_mem _ _
  rw [if_neg h4]
  by_cases h5 : (strategy == 5) = true
  · rw [if_pos h5]
    exact hsort_mem _ _
  rw [if_neg h5]
  exact pyChoice_mem hne rnd

/-- Every member of the enumerated legal moves passes `is_valid_move`; hence so
does the AI's choice.  This is why the `while self.invalid_move` loop of
`play_turn` always exits after one iteration in AI play. -/
theorem ai_player_valid (strategy : Int) {tiles : List Nat} {total : Nat}
    (hne : get_possible_moves tiles total ≠ []) (dice1 dice2 rnd : Nat) :
    is_valid_move tiles
      (ai_player strategy (get_possible_moves tiles total) dice1 dice2 total rnd)
      total = true := by
  have hmem := ai_player_mem strategy hne dice1 dice2 total rnd
  obtain ⟨hsub, -, hsum⟩ := mem_get_possible_moves.mp hmem
  exact (is_valid_move_iff ..).mpr ⟨hsum, fun x hx => hsub.subset hx⟩

end STB

namespace STB

/-! ## Helper lemmas about turns and the game loop -/

/-- A stuck turn: no legal move.  The game-over flag is set and the appended
roll is popped again, so the observable state only gains the flag. -/
theorem play_turn_stuck {s : GameState} {dice1 dice2 : Nat} (rnd : Nat)
    (h : get_possible_moves s.tiles (dice1 + dice2) = []) :
    play_turn s dice1 dice2 rnd = { s with game_over := true } := by
  unfold play_turn
  dsimp only
  rw [if_pos (by simp [h])]
  simp [List.dropLast_concat]

/-- A productive turn: some enumerated legal move is applied, the roll and the
move are recorded, and the flag is set exactly when the box empties. -/
theorem play_turn_step {s : GameState} {dice1 dice2 : Nat} (rnd : Nat)
    (h : get_possible_moves s.tiles (dice1 + dice2) ≠ []) :
    ∃ move ∈ get_possible_moves s.tiles (dice1 + dice2),
      (play_turn s dice1 dice2 rnd).tiles = make_move s.tiles move ∧
      (play_turn s dice1 dice2 rnd).rolls = s.rolls ++ [(dice1, dice2)] ∧
      (play_turn s dice1 dice2 rnd).moves = s.moves ++ [move] ∧
      (play_turn s dice1 dice2 rnd).game_over
        = ((make_move s.tiles move).isEmpty || s.game_over) ∧
      (play_turn s dice1 dice2 rnd).strategy = s.strategy := by
  have hemp : (get_possible_moves s.tiles (dice1 + dice2)).isEmpty = false := by
    simp [List.isEmpty_iff, h]
  have hval := ai_player_valid s.strategy h dice1 dice2 rnd
  refine ⟨ai_player s.strategy (get_possible_moves s.tiles (dice1 + dice2))
    dice1 dice2 (dice1 + dice2) rnd, ai_player_mem s.strategy h dice1 dice2 (dice1 + dice2) rnd,
    ?_⟩
  unfold play_turn
  dsimp only
  rw [if_neg (by simp [hemp])]
  rw [if_pos hval]
  by_cases hb : (make_move s.tiles (ai_player s.strategy
      (get_possible_moves s.tiles (dice1 + dice2)) dice1 dice2 (dice1 + dice2) rnd)).isEmpty
  · rw [if_pos hb]
    refine ⟨rfl, rfl, rfl, ?_, rfl⟩
    rw [hb]
    rfl
  · rw [if_neg hb]
    refine ⟨rfl, rfl, rfl, ?_, rfl⟩
    rw [Bool.not_eq_true] at hb
    rw [hb]
    rfl

theorem play_turn_tiles_subset (s : GameState) (dice1 dice2 rnd : Nat) :
    (play_turn s dice1 dice2 rnd).tiles ⊆ s.tiles := by
  by_cases h : get_possible_moves s.tiles (dice1 + dice2) = []
  · rw [play_turn_stuck rnd h]
    exact fun x hx => hx
  · obtain ⟨move, -, htiles, -, -, -, -⟩ := play_turn_step rnd h
    rw [htiles]
    exact make_move_subset move s.tiles

/-- Every turn either ends the game or strictly shrinks a still non-empty tile
list. -/
theorem play_turn_over_or_shrink (s : GameState) (dice1 dice2 rnd : Nat) :
    (play_turn s dice1 dice2 rnd).game_over = true ∨
      ((play_turn s dice1 dice2 rnd).tiles ≠ [] ∧
        (play_turn s dice1 dice2 rnd).tiles.length < s.tiles.length) := by
  by_cases h : get_possible_moves s.tiles (dice1 + dice2) = []
  · left
    rw [play_turn_stuck rnd h]
  · obtain ⟨move, hmove, htiles, -, -, hover, -⟩ := play_turn_step rnd h
    obtain ⟨hsub, hne, -⟩ := mem_get_possible_moves.mp hmove
    by_cases hb : (make_move s.tiles move).isEmpty
    · left
      rw [hover, hb]
      rfl
    · right
      rw [Bool.not_eq_true] at hb
      refine ⟨?_, ?_⟩
      · rw [htiles]
        exact fun hnil => by simp [hnil] at hb
      · rw [htiles]
        exact make_move_length_lt hne (fun x hx => hsub.subset hx)

theorem play_turn_rolls_moves (s : GameState) (dice1 dice2 rnd : Nat)
    (h : s.rolls.length = s.moves.length) :
    (play_turn s dice1 dice2 rnd).rolls.length
      = (play_turn s dice1 dice2 rnd).moves.length := by
  by_cases hpm : get_possible_moves s.tiles (dice1 + dice2) = []
  · rw [play_turn_stuck rnd hpm]
    exact h
  · obtain ⟨move, -, -, hrolls, hmoves, -, -⟩ := play_turn_step rnd hpm
    rw [hrolls, hmoves]
    simp [h]

/-- The state invariant behind claim 5: duplicate-free tiles inside `1..9`,
and the remaining sum plus everything removed so far is `45`. -/
def TileInv (s : GameState) : Prop :=
  s.tiles.Nodup ∧ (∀ x ∈ s.tiles, x ∈ List.range' 1 9) ∧
    s.tiles.sum + ((s.moves.map List.sum).sum) = 45

theorem play_turn_inv {s : GameState} (hinv : TileInv s) (dice1 dice2 rnd : Nat) :
    TileInv (play_turn s dice1 dice2 rnd) := by
  obtain ⟨hnd, hrange, hsum⟩ := hinv
  by_cases h : get_possible_moves s.tiles (dice1 + dice2) = []
  · rw [play_turn_stuck rnd h]
    exact ⟨hnd, hrange, hsum⟩
  · obtain ⟨move, hmove, htiles, -, hmoves, -, -⟩ := play_turn_step rnd h
    obtain ⟨hsub, -, -⟩ := mem_get_possible_moves.mp hmove
    have hmnd : move.Nodup := hnd.sublist hsub
    have hmmem : ∀ x ∈ move, x ∈ s.tiles := fun x hx => hsub.subset hx
    refine ⟨?_, ?_, ?_⟩
    · rw [htiles]
      exact make_move_nodup hnd hmnd hmmem
    · rw [htiles]
      intro x hx
      exact hrange x (make_move_subset move s.tiles hx)
    · rw [htiles, hmoves]
      have h1 := make_move_sum hmnd hmmem
      simp only [List.map_append, List.map_cons, List.map_nil, List.sum_append,
        List.sum_cons, List.sum_nil]
      omega

theorem play_game_aux_of_over {dice : Nat → Nat × Nat} {rnds : Nat → Nat}
    {fuel k : Nat} {s : GameState} (h : s.game_over = true) :
    play_game_aux dice rnds k fuel s = s := by
  cases fuel with
  | zero => rfl
  | succ n => simp [play_game_aux, h]

/-- Fuel equal to the number of remaining tiles (at least one unit) always
drives the loop to the game-over flag. -/
theorem play_game_aux_over (dice : Nat → Nat × Nat) (rnds : Nat → Nat) :
    ∀ (fuel : Nat) (s : GameState) (k : Nat), s.tiles.length ≤ fuel → 1 ≤ fuel →
      (play_game_aux dice rnds k fuel s).game_over = true := by
  intro fuel
  induction fuel with
  | zero => intro s k _ h1; omega
  | succ n ih =>
    intro s k hlen _
    by_cases hover : s.game_over = true
    · rw [play_game_aux_of_over hover]
      exact hover
    · have hstep : play_game_aux dice rnds k (n + 1) s
          = play_game_aux dice rnds (k + 1) n
              (play_turn s (dice k).1 (dice k).2 (rnds k)) := by
        simp [play_game_aux, hover]
      rw [hstep]
      rcases play_turn_over_or_shrink s (dice k).1 (dice k).2 (rnds k) with hov | ⟨hne, hlt⟩
      · rw [play_game_aux_of_over hov]
        exact hov
      · have h1 : 1 ≤ (play_turn s (dice k).1 (dice k).2 (rnds k)).tiles.length :=
          List.length_pos.mpr hne
        exact ih _ (k + 1) (by omega) (by omega)

/-- Each executed turn appends at most one move while consuming at least one
tile, so the moves recorded never exceed the starting tile count. -/
theorem play_game_aux_moves_le (dice : Nat → Nat × Nat) (rnds : Nat → Nat) :
    ∀ (fuel : Nat) (s : GameState) (k : Nat),
      (play_game_aux dice rnds k fuel s).moves.length
        ≤ s.moves.length + s.tiles.length := by
  intro fuel
  induction fuel with
  | zero => intro s k; exact Nat.le_add_right _ _
  | succ n ih =>
    intro s k
    by_cases hover : s.game_over = true
    · rw [play_game_aux_of_over hover]
      exact Nat.le_add_right _ _
    · have hstep : play_game_aux dice rnds k (n + 1) s
          = play_game_aux dice rnds (k + 1) n
              (play_turn s (dice k).1 (dice k).2 (rnds k)) := by
        simp [play_game_aux, hover]
      rw [hstep]
      by_cases hpm : get_possible_moves s.tiles ((dice k).1 + (dice k).2) = []
      · rw [play_turn_stuck (rnds k) hpm]
        have := ih ({ s with game_over := true }) (k + 1)
        simpa using this
      · obtain ⟨move, hmove, htiles, -, hmoves, -, -⟩ := play_turn_step (rnds k) hpm
        obtain ⟨hsub, hne, -⟩ := mem_get_possible_moves.mp hmove
        have hlt : (play_turn s (dice k).1 (dice k).2 (rnds k)).tiles.length
            < s.tiles.length := by
          rw [htiles]
          exact make_move_length_lt hne (fun x hx => hsub.subset hx)
        have := ih (play_turn s (dice k).1 (dice k).2 (rnds k)) (k + 1)
        rw [hmoves] at this
        simp only [List.length_append, List.length_cons, List.length_nil] at this
        omega

theorem play_game_aux_inv (dice : Nat → Nat × Nat) (rnds : Nat → Nat) :
    ∀ (fuel : Nat) (s : GameState) (k : Nat), TileInv s →
      TileInv (play_game_aux dice rnds k fuel s) := by
  intro fuel
  induction fuel with
  | zero => intro s k h; exact h
  | succ n ih =>
    intro s k h
    by_cases hover : s.game_over = true
    · rw [play_game_aux_of_over hover]
      exact h
    · have hstep : play_game_aux dice rnds k (n + 1) s
          = play_game_aux dice rnds (k + 1) n
              (play_turn s (dice k).1 (dice k).2 (rnds k)) := by
        simp [play_game_aux, hover]
      rw [hstep]
      exact ih _ (k + 1) (play_turn_inv h (dice k).1 (dice k).2 (rnds k))

theorem play_game_aux_rolls_moves (dice : Nat → Nat × Nat) (rnds : Nat → Nat) :
    ∀ (fuel : Nat) (s : GameState) (k : Nat), s.rolls.length = s.moves.length →
      (play_game_aux dice rnds k fuel s).rolls.length
        = (play_game_aux dice rnds k fuel s).moves.length := by
  intro fuel
  induction fuel with
  | zero => intro s k h; exact h
  | succ n ih =>
    intro s k h
    by_cases hover : s.game_over = true
    · rw [play_game_aux_of_over hover]
      exact h
    · have hstep : play_game_aux dice rnds k (n + 1) s
          = play_game_aux dice rnds (k + 1) n
              (play_turn s (dice k).1 (dice k).2 (rnds k)) := by
        simp [play_game_aux, hover]
      rw [hstep]
      exact ih _ (k + 1) (play_turn_rolls_moves s (dice k).1 (dice k).2 (rnds k) h)

theorem play_game_aux_succ_subset (dice : Nat → Nat × Nat) (rnds : Nat → Nat) :
    ∀ (n : Nat) (s : GameState) (k : Nat),
      (play_game_aux dice rnds k (n + 1) s).tiles
        ⊆ (play_game_aux dice rnds k n s).tiles := by
  intro n
  induction n with
  | zero =>
    intro s k
    by_cases hover : s.game_over = true
    · rw [play_game_aux_of_over hover]
      exact fun x hx => hx
    · have h1 : play_game_aux dice rnds k 1 s
          = play_turn s (dice k).1 (dice k).2 (rnds k) := by
        simp [play_game_aux, hover]
      rw [h1]
      exact play_turn_tiles_subset s (dice k).1 (dice k).2 (rnds k)
  | succ n ih =>
    intro s k
    by_cases hover : s.game_over = true
    · rw [play_game_aux_of_over hover, play_game_aux_of_over hover]
      exact fun x hx => hx
    · have h1 : play_game_aux dice rnds k (n + 2) s
          = play_game_aux dice rnds (k + 1) (n + 1)
              (play_turn s (dice k).1 (dice k).2 (rnds k)) := by
        simp [play_game_aux, hover]
      have h2 : play_game_aux dice rnds k (n + 1) s
          = play_game_aux dice rnds (k + 1) n
              (play_turn s (dice k).1 (dice k).2 (rnds k)) := by
        simp [play_game_aux, hover]
      rw [h1, h2]
      exact ih _ (k + 1)

theorem init_inv (strategy : Int) : TileInv (init strategy) := by
  refine ⟨?_, fun x hx => hx, ?_⟩
  · show (List.range' 1 9).Nodup
    decide
  · show (List.range' 1 9).sum + ((([] : List Move).map List.sum).sum) = 45
    decide

end STB

namespace STB

/-! ## Claim theorems -/

/-- C1: for every duplicate-free tile set inside `1..9` and every total, the
move enumeration is sound (every returned move is a non-empty duplicate-free
subset of the tiles summing exactly to the total) and complete (every
non-empty subset of the tiles summing to the total, of any size, appears in
the returned list). -/
theorem claim1_enumeration_sound_complete (tiles : List Nat) (total : Nat)
    (hnd : tiles.Nodup) (_hrange : ∀ x ∈ tiles, x ∈ List.range' 1 9) :
    (∀ m ∈ get_possible_moves tiles total,
        m ≠ [] ∧ m.sum = total ∧ m.Nodup ∧ (∀ x ∈ m, x ∈ tiles)) ∧
    (∀ S : Finset Nat, S.Nonempty → S ⊆ tiles.toFinset → S.sum id = total →
        ∃ m ∈ get_possible_moves tiles total, m.toFinset = S) := by
  constructor
  · intro m hm
    obtain ⟨hsub, hne, hsum⟩ := mem_get_possible_moves.mp hm
    exact ⟨hne, hsum, hnd.sublist hsub, fun x hx => hsub.subset hx⟩
  · intro S hSne hSsub hSsum
    have hmem_iff : ∀ a : Nat, a ∈ tiles.filter (fun x => decide (x ∈ S)) ↔ a ∈ S := by
      intro a
      rw [List.mem_filter]
      constructor
      · rintro ⟨-, hdec⟩
        exact of_decide_eq_true hdec
      · intro haS
        exact ⟨List.mem_toFinset.mp (hSsub haS), decide_eq_true haS⟩
    have htf : (tiles.filter (fun x => decide (x ∈ S))).toFinset = S := by
      ext a
      rw [List.mem_toFinset]
      exact hmem_iff a
    have hmnd : (tiles.filter (fun x => decide (x ∈ S))).Nodup := hnd.filter _
    have hsum2 : (tiles.filter (fun x => decide (x ∈ S))).sum = total := by
      have h1 := List.sum_toFinset (id : Nat → Nat) hmnd
      rw [htf, List.map_id] at h1
      rw [← h1]
      exact hSsum
    have hne2 : tiles.filter (fun x => decide (x ∈ S)) ≠ [] := by
      obtain ⟨a, ha⟩ := hSne
      exact List.ne_nil_of_mem ((hmem_iff a).mpr ha)
    exact ⟨_, mem_get_possible_moves.mpr ⟨tiles.filter_sublist, hne2, hsum2⟩, htf⟩

/-- Witness for C1: on the full tile set with total `10`, the subset `{1, 9}`
is produced by the enumeration. -/
theorem claim1_witness :
    ∃ m ∈ get_possible_moves (List.range' 1 9) 10, m.toFinset = ({1, 9} : Finset Nat) :=
  (claim1_enumeration_sound_complete (List.range' 1 9) 10 (by decide)
    (fun x hx => hx)).2 {1, 9} (by decide) (by decide) (by decide)

/-- C2 (code bug): the claim says strategy 1 prefers the singleton `[total]`
whenever it is legal, and in particular picks `[7]` on tiles `1..9` with roll
`(3, 4)`.  The code computes `[total] if [total] in possible_moves else []`,
but `possible_moves` holds tuples while `[total]` is a list, and a Python list
never equals a tuple, so the singleton branch can never fire.  This theorem
evaluates the code at the failing input: `[7]` IS among the legal moves, yet
the dice-pair move `[3, 4]` is chosen. -/
theorem claim2_single_tile_bug :
    [7] ∈ get_possible_moves (List.range' 1 9) 7 ∧
    ai_player 1 (get_possible_moves (List.range' 1 9) 7) 3 4 7 0 = [3, 4] := by
  decide

/-- C3 counterexample: the claim requires `is_valid_move` to reject moves with
repeated tiles, but the code only checks the sum and membership, so the
duplicated move `[2, 2]` with total `4` is accepted although it is not
duplicate-free. -/
theorem claim3_counterexample :
    is_valid_move (List.range' 1 9) [2, 2] 4 = true ∧
    ¬ ([2, 2] : List Nat).Nodup := by
  decide

/-- C3 (amended): `is_valid_move(m, t)` on tile state `T` returns true iff
`sum(m) = t` and every element of `m` is present in `T`; pairwise distinctness
of `m` is NOT checked (a move listing the same tile twice is accepted whenever
its sum matches and the tile is present). -/
theorem claim3_amended_is_valid_move (tiles : List Nat) (move : Move) (total : Nat) :
    is_valid_move tiles move total = true ↔
      (move.sum = total ∧ ∀ x ∈ move, x ∈ tiles) :=
  is_valid_move_iff tiles move total

/-- C4 counterexample: in the `stb_simple_ai.py` variant (cited by the claim),
the stuck roll is NOT removed.  Starting a game, rolling `(6, 6)` and removing
`[1, 2, 9]`, then rolling `(1, 1)` (total 2, no legal move) ends the game with
rolls `[(6,6), (1,1)]` but moves `[[1,2,9]]`: the triggering roll stays
recorded and `len(rolls) = len(moves) + 1`. -/
theorem claim4_counterexample :
    (SimpleAI.play_turn (SimpleAI.play_turn SimpleAI.init 6 6 3) 1 1 0).game_over = true ∧
    (SimpleAI.play_turn (SimpleAI.play_turn SimpleAI.init 6 6 3) 1 1 0).rolls
      = [(6, 6), (1, 1)] ∧
    (SimpleAI.play_turn (SimpleAI.play_turn SimpleAI.init 6 6 3) 1 1 0).moves
      = [[1, 2, 9]] := by
  decide

/-- C4 (amended): in the `shut_the_box.py` variant the claim holds: a stuck
roll sets the game-over flag and is popped from the recorded rolls, leaving
rolls and moves unchanged, and consequently every state reached from a fresh
game keeps `len(rolls) = len(moves)`.  In the `stb_simple_ai.py` variant the
stuck roll is retained (see the counterexample), so there
`len(rolls) = len(moves) + 1` after a stuck game. -/
theorem claim4_stuck_roll_discard :
    (∀ (s : GameState) (dice1 dice2 rnd : Nat),
      get_possible_moves s.tiles (dice1 + dice2) = [] →
        (play_turn s dice1 dice2 rnd).game_over = true ∧
        (play_turn s dice1 dice2 rnd).rolls = s.rolls ∧
        (play_turn s dice1 dice2 rnd).moves = s.moves) ∧
    (∀ (strategy : Int) (dice : Nat → Nat × Nat) (rnds : Nat → Nat) (n : Nat),
      (play_game_aux dice rnds 0 n (init strategy)).rolls.length
        = (play_game_aux dice rnds 0 n (init strategy)).moves.length) := by
  constructor
  · intro s dice1 dice2 rnd h
    rw [play_turn_stuck rnd h]
    exact ⟨rfl, rfl, rfl⟩
  · intro strategy dice rnds n
    exact play_game_aux_rolls_moves dice rnds n (init strategy) 0 rfl

/-- A concrete mid-game state of the `shut_the_box.py` variant: tiles `3..8`
remain, one roll and one move recorded. -/
def stuckExample : GameState :=
  { tiles := [3, 4, 5, 6, 7, 8], game_over := false, rolls := [(6, 6)],
    moves := [[1, 2, 9]], strategy := 0 }

/-- Witness for C4: a concrete stuck turn of the `shut_the_box.py` variant
(tiles `3..8`, roll `(1, 1)`), plus the roll/move balance after two turns of a
concrete game. -/
theorem claim4_witness :
    ((play_turn stuckExample 1 1 0).game_over = true ∧
      (play_turn stuckExample 1 1 0).rolls = [(6, 6)] ∧
      (play_turn stuckExample 1 1 0).moves = [[1, 2, 9]]) ∧
    (play_game_aux (fun _ => (6, 6)) (fun _ => 3) 0 2 (init 0)).rolls.length
      = (play_game_aux (fun _ => (6, 6)) (fun _ => 3) 0 2 (init 0)).moves.length :=
  ⟨claim4_stuck_roll_discard.1 stuckExample 1 1 0 (by decide),
    claim4_stuck_roll_discard.2 0 (fun _ => (6, 6)) (fun _ => 3) 2⟩

end STB

namespace STB

/-- C5: every state reachable from a fresh game by `play_turn` steps has a
duplicate-free tile list inside `1..9`; one further step only shrinks or keeps
the tile list (never grows it); and the reported score plus the sum of all
tiles ever removed is `45`, with `tiles_closed = 9 - len(tiles)`. -/
theorem claim5_invariants (strategy : Int) (dice : Nat → Nat × Nat)
    (rnds : Nat → Nat) (n : Nat) :
    (play_game_aux dice rnds 0 n (init strategy)).tiles.Nodup ∧
    (∀ x ∈ (play_game_aux dice rnds 0 n (init strategy)).tiles, x ∈ List.range' 1 9) ∧
    (play_game_aux dice rnds 0 (n + 1) (init strategy)).tiles
      ⊆ (play_game_aux dice rnds 0 n (init strategy)).tiles ∧
    (play_game strategy dice rnds n).2.1
        + (((play_game_aux dice rnds 0 n (init strategy)).moves.map List.sum).sum) = 45 ∧
    (play_game strategy dice rnds n).2.2.1
      = 9 - (play_game_aux dice rnds 0 n (init strategy)).tiles.length := by
  obtain ⟨h1, h2, h3⟩ :=
    play_game_aux_inv dice rnds n (init strategy) 0 (init_inv strategy)
  exact ⟨h1, h2, play_game_aux_succ_subset dice rnds n (init strategy) 0, h3, rfl⟩

/-- C6: strategy 3 gives each tile `i` the probability mass of all two-dice
sums `s` with `i ≤ s ≤ 9` under the standard distribution (stated here by
`spec_dice_sum_prob`, the table written in the claim), scores each legal move
by the sum of its tiles' masses, and from every non-empty legal-move list
returns the first move attaining the minimum score: strictly cheaper than
everything before it, no dearer than everything after it. -/
theorem claim6_strategy3_least_probability (possible_moves : List Move)
    (dice1 dice2 total rnd : Nat) (hne : possible_moves ≠ []) :
    (∀ i, 1 ≤ i → i ≤ 9 →
      calculate_tile_probabilities i = (Finset.Icc i 9).sum spec_dice_sum_prob) ∧
    (∃ l₁ l₂,
      possible_moves = l₁ ++ ai_player 3 possible_moves dice1 dice2 total rnd :: l₂ ∧
      (∀ z ∈ l₁,
        ((ai_player 3 possible_moves dice1 dice2 total rnd).map
            calculate_tile_probabilities).sum
          < (z.map calculate_tile_probabilities).sum) ∧
      (∀ z ∈ l₂,
        ((ai_player 3 possible_moves dice1 dice2 total rnd).map
            calculate_tile_probabilities).sum
          ≤ (z.map calculate_tile_probabilities).sum)) := by
  obtain ⟨x, xs, rfl⟩ := List.exists_cons_of_ne_nil hne
  constructor
  · intro i hi1 hi9
    interval_cases i <;>
      norm_num [Finset.sum_Icc_succ_top, spec_dice_sum_prob,
        calculate_tile_probabilities, sum_probabilities]
  · have hchoice : ai_player 3 (x :: xs) dice1 dice2 total rnd
        = (pyMinBySnd ((x :: xs).map
            (fun move => (move, (move.map calculate_tile_probabilities).sum)))).1 := rfl
    have hmapne : (x :: xs).map
        (fun move => (move, (move.map calculate_tile_probabilities).sum)) ≠ [] := by
      simp
    obtain ⟨L₁, L₂, hsplit, hbefore, hafter⟩ := pyMinBySnd_first_min hmapne
    obtain ⟨m₁, a, m₂, hpm, hmap1, hfa, hmap2⟩ := map_eq_append_cons hsplit
    refine ⟨m₁, m₂, ?_, ?_, ?_⟩
    · rw [hchoice, ← hfa]
      exact hpm
    · intro z hz
      rw [hchoice, ← hfa]
      have hzmem : (z, (z.map calculate_tile_probabilities).sum) ∈ L₁ := by
        rw [← hmap1]
        exact List.mem_map_of_mem _ hz
      have h := hbefore _ hzmem
      rw [← hfa] at h
      exact h
    · intro z hz
      rw [hchoice, ← hfa]
      have hzmem : (z, (z.map calculate_tile_probabilities).sum) ∈ L₂ := by
        rw [← hmap2]
        exact List.mem_map_of_mem _ hz
      have h := hafter _ hzmem
      rw [← hfa] at h
      exact h

/-- Witness for C6: tile `7` gets exactly the mass of the sums `7, 8, 9`. -/
theorem claim6_witness :
    calculate_tile_probabilities 7 = (Finset.Icc 7 9).sum spec_dice_sum_prob :=
  (claim6_strategy3_least_probability (get_possible_moves (List.range' 1 9) 7)
    3 4 7 0 (by decide)).1 7 (by decide) (by decide)

/-- C7: strategy 2 returns the first move of maximal tile count from every
non-empty legal-move list (strictly more tiles than everything before it, at
least as many as everything after it); in particular on tiles `1..9` with
total `9` the chosen move has 3 tiles. -/
theorem claim7_strategy2_max_tiles (possible_moves : List Move)
    (dice1 dice2 total rnd : Nat) (hne : possible_moves ≠ []) :
    (∃ l₁ l₂,
      possible_moves = l₁ ++ ai_player 2 possible_moves dice1 dice2 total rnd :: l₂ ∧
      (∀ z ∈ l₁,
        z.length < (ai_player 2 possible_moves dice1 dice2 total rnd).length) ∧
      (∀ z ∈ l₂,
        z.length ≤ (ai_player 2 possible_moves dice1 dice2 total rnd).length)) ∧
    (ai_player 2 (get_possible_moves (List.range' 1 9) 9) dice1 dice2 9 rnd).length
      = 3 := by
  obtain ⟨x, xs, rfl⟩ := List.exists_cons_of_ne_nil hne
  constructor
  · have hchoice : ai_player 2 (x :: xs) dice1 dice2 total rnd
        = pyMaxByLen (x :: xs) := rfl
    rw [hchoice]
    exact pyMaxByLen_first_max (by simp)
  · have h : ai_player 2 (get_possible_moves (List.range' 1 9) 9) dice1 dice2 9 rnd
        = pyMaxByLen (get_possible_moves (List.range' 1 9) 9) := rfl
    rw [h]
    decide

/-- Witness for C7: on tiles `1..9` with total `9` strategy 2 picks a 3-tile
move. -/
theorem claim7_witness :
    (ai_player 2 (get_possible_moves (List.range' 1 9) 9) 4 5 9 0).length = 3 :=
  (claim7_strategy2_max_tiles (get_possible_moves (List.range' 1 9) 9)
    4 5 9 0 (by decide)).2

/-- C8 counterexample: the claim says a tag outside `{0..5}` signals an
`UnknownStrategyError`; the code instead silently falls back to the
random-choice strategy.  With tag `99` the selector returns the very move the
random-choice strategy (tag 0) returns — a legal move, no error. -/
theorem claim8_counterexample :
    ai_player 99 (get_possible_moves (List.range' 1 9) 7) 3 4 7 1 = [1, 6] ∧
    ai_player 0 (get_possible_moves (List.range' 1 9) 7) 3 4 7 1 = [1, 6] := by
  decide

/-- C8 (amended): for every strategy tag outside `{0, 1, 2, 3, 4, 5}`,
`ai_player` silently substitutes the random-choice strategy: its result equals
the tag-0 result on the same inputs, rather than signalling an error. -/
theorem claim8_unknown_tag_falls_back (strategy : Int) (possible_moves : List Move)
    (dice1 dice2 total rnd : Nat)
    (h : strategy ∉ ([0, 1, 2, 3, 4, 5] : List Int)) :
    ai_player strategy possible_moves dice1 dice2 total rnd
      = ai_player 0 possible_moves dice1 dice2 total rnd := by
  simp only [List.mem_cons, List.not_mem_nil, or_false, not_or] at h
  obtain ⟨h0, h1, h2, h3, h4, h5⟩ := h
  have e0 : (strategy == 0) = false := by simp [h0]
  have e1 : (strategy == 1) = false := by simp [h1]
  have e2 : (strategy == 2) = false := by simp [h2]
  have e3 : (strategy == 3) = false := by simp [h3]
  have e4 : (strategy == 4) = false := by simp [h4]
  have e5 : (strategy == 5) = false := by simp [h5]
  unfold ai_player
  simp only [e0, e1, e2, e3, e4, e5, Bool.false_eq_true, if_false]
  rfl

/-- Witness for C8: tag `99` behaves exactly like tag `0` on a concrete
legal-move list. -/
theorem claim8_witness :
    ai_player 99 (get_possible_moves (List.range' 1 9) 7) 3 4 7 0
      = ai_player 0 (get_possible_moves (List.range' 1 9) 7) 3 4 7 0 :=
  claim8_unknown_tag_falls_back 99 (get_possible_moves (List.range' 1 9) 7)
    3 4 7 0 (by decide)

/-- C9: for every dice stream, random stream and strategy tag, each turn
either sets the game-over flag or strictly shrinks the tile list, and the
game loop from a fresh game reaches the game-over flag within 9 turns (any
fuel of at least 9 suffices), having applied at most 9 moves. -/
theorem claim9_termination (strategy : Int) (dice : Nat → Nat × Nat)
    (rnds : Nat → Nat) (fuel : Nat) (hfuel : 9 ≤ fuel) :
    (∀ (s : GameState) (dice1 dice2 rnd : Nat),
      (play_turn s dice1 dice2 rnd).game_over = true ∨
        (play_turn s dice1 dice2 rnd).tiles.length < s.tiles.length) ∧
    (play_game_aux dice rnds 0 fuel (init strategy)).game_over = true ∧
    (play_game_aux dice rnds 0 fuel (init strategy)).moves.length ≤ 9 := by
  refine ⟨?_, ?_, ?_⟩
  · intro s dice1 dice2 rnd
    rcases play_turn_over_or_shrink s dice1 dice2 rnd with h | ⟨-, h⟩
    · exact Or.inl h
    · exact Or.inr h
  · refine play_game_aux_over dice rnds fuel (init strategy) 0 ?_ (by omega)
    show (List.range' 1 9).length ≤ fuel
    simp only [List.length_range']
    omega
  · have h := play_game_aux_moves_le dice rnds fuel (init strategy) 0
    have h9 : (init strategy).moves.length + (init strategy).tiles.length = 9 := by
      show ([] : List Move).length + (List.range' 1 9).length = 9
      simp
    omega

/-- Witness for C9: with constant dice `(1, 1)` and zero random stream, fuel 9
ends the game with at most 9 moves. -/
theorem claim9_witness :
    (play_game_aux (fun _ => (1, 1)) (fun _ => 0) 0 9 (init 0)).game_over = true ∧
    (play_game_aux (fun _ => (1, 1)) (fun _ => 0) 0 9 (init 0)).moves.length ≤ 9 :=
  (claim9_termination 0 (fun _ => (1, 1)) (fun _ => 0) 9 (by omega)).2

end STB

namespace STB

set_option maxRecDepth 40000 in
/-- Among the subsets of `{1..9}`, a sum of at most 12 forces at most 4
elements (the five smallest distinct tiles already sum to 15). -/
theorem card_le_four_of_sum_le_twelve :
    ∀ S ∈ (Finset.Icc 1 9).powerset, S.sum id ≤ 12 → S.card ≤ 4 := by
  decide

/-- C10: with duplicate-free tiles inside `1..9` and a total of at most 12,
every enumerated move has at most 4 tiles, and padding the move list to
length 5 never truncates: each padded entry has length 5 and starts with the
original move. -/
theorem claim10_move_size_and_padding (tiles : List Nat) (total : Nat)
    (hnd : tiles.Nodup) (hrange : ∀ x ∈ tiles, x ∈ List.range' 1 9)
    (htot : total ≤ 12) :
    (∀ m ∈ get_possible_moves tiles total, m.length ≤ 4) ∧
    (∀ p ∈ pad_moves (get_possible_moves tiles total),
      p.length = 5 ∧ ∃ m ∈ get_possible_moves tiles total, m <+: p) := by
  have hlen : ∀ m ∈ get_possible_moves tiles total, m.length ≤ 4 := by
    intro m hm
    obtain ⟨hsub, -, hsum⟩ := mem_get_possible_moves.mp hm
    have hmnd : m.Nodup := hnd.sublist hsub
    have hS : m.toFinset ∈ (Finset.Icc 1 9).powerset := by
      rw [Finset.mem_powerset]
      intro x hx
      have hx2 := hrange x (hsub.subset (List.mem_toFinset.mp hx))
      rw [List.mem_range'] at hx2
      obtain ⟨i, hi, rfl⟩ := hx2
      rw [Finset.mem_Icc]
      omega
    have hsum2 : m.toFinset.sum id ≤ 12 := by
      have h1 := List.sum_toFinset (id : Nat → Nat) hmnd
      rw [List.map_id] at h1
      rw [h1, hsum]
      exact htot
    have hcard := card_le_four_of_sum_le_twelve m.toFinset hS hsum2
    rw [List.toFinset_card_of_nodup hmnd] at hcard
    exact hcard
  refine ⟨hlen, ?_⟩
  intro p hp
  obtain ⟨m, hm, rfl⟩ := List.mem_map.mp hp
  have h4 := hlen m hm
  constructor
  · simp only [List.length_append, List.length_replicate]
    omega
  · exact ⟨m, hm, List.prefix_append m _⟩

/-- Witness for C10: on the full tile set with total 12, the padded first move
`[3, 9, 0, 0, 0]` has length 5 and extends the enumerated move `[3, 9]`. -/
theorem claim10_witness :
    ([3, 9, 0, 0, 0] : List Nat).length = 5 ∧
    ∃ m ∈ get_possible_moves (List.range' 1 9) 12, m <+: [3, 9, 0, 0, 0] :=
  (claim10_move_size_and_padding (List.range' 1 9) 12 (by decide)
    (fun x hx => hx) (by omega)).2 [3, 9, 0, 0, 0] (by decide)

end STB
